import Mathlib

/-!
Shallow embedding of `scripts/verify_mdi_codepoints.py`.

Strings are modelled as `List Char`.  Python dictionaries are modelled as
functions `List Char → Option (List Char)` (updated pointwise, so a later
write to the same key overwrites an earlier one, exactly like `dict`
assignment).  File contents are passed in explicitly: the gzip/metadata
file as a `MetaFile` value and the declaration script as a list of lines
(each line may keep its trailing newline, as in Python's file iteration).
-/

namespace MdiVerify

/-- Python's `str.strip()` whitespace class, restricted to the ASCII
whitespace characters (space, tab, newline, carriage return, vertical
tab, form feed). -/
def pyIsSpace (c : Char) : Bool :=
  c == ' ' || c == '\t' || c == '\n' || c == '\r' || c == '\x0b' || c == '\x0c'

/-- Python's `str.strip()`: drop leading and trailing whitespace. -/
def pyStrip (l : List Char) : List Char :=
  (((l.dropWhile pyIsSpace).reverse.dropWhile pyIsSpace).reverse)

/-- The character class `[A-Fa-f0-9]` of the codepoint regex. -/
def isHexCh (c : Char) : Bool :=
  if 48 ≤ c.toNat ∧ c.toNat ≤ 57 then true
  else if 97 ≤ c.toNat ∧ c.toNat ≤ 102 then true
  else if 65 ≤ c.toNat ∧ c.toNat ≤ 70 then true
  else false

/-- Python's substring test `needle in hay` for strings. -/
def strContains (hay needle : List Char) : Bool :=
  if needle.isPrefixOf hay then true
  else
    match hay with
    | [] => false
    | _ :: t => strContains t needle

/-- Python's `s.split('(')[0]`: the part of `s` before the first `'('`. -/
def beforeParen (s : List Char) : List Char :=
  s.takeWhile (fun c => c ≠ '(')

/-- Python's `s.split(' - ')[0]`: the part of `s` before the first
occurrence of the three-character pattern space, hyphen, space. -/
def beforeSDS : List Char → List Char
  | [] => []
  | c :: rest =>
    if c = ' ' ∧ rest.take 2 = ['-', ' '] then []
    else c :: beforeSDS rest

/-- Occurrence test for the space-hyphen-space pattern (used only to
reason about `beforeSDS`). -/
def hasSDS : List Char → Bool
  | [] => false
  | c :: rest =>
    if c = ' ' ∧ rest.take 2 = ['-', ' '] then true
    else hasSDS rest

/-- Embedding of `extract_icon_name_from_comment`:
`comment.split('(')[0].strip()`, then `.split(' - ')[0].strip()`, then
`.lower().strip()`. -/
def extract_icon_name_from_comment (comment : List Char) : List Char :=
  let name1 := pyStrip (beforeParen comment)
  let name2 := pyStrip (beforeSDS name1)
  pyStrip (name2.map Char.toLower)

/-- Embedding of `claimed_name.replace('_', '-').replace(' ', '-')` from
`main` (two successive single-character replacements). -/
def hyphenate (s : List Char) : List Char :=
  (s.map (fun c => if c = '_' then '-' else c)).map (fun c => if c = ' ' then '-' else c)

/-- The Name Normalizer as the specification sentence words it, with a
single final trim: the substring before the first parenthesis, then the
substring of that before the first space-hyphen-space occurrence, then
lowercased and whitespace-trimmed.  (The code additionally strips after
each stage; `c6_counterexample` separates the two.) -/
def normalizerClaimed (comment : List Char) : List Char :=
  pyStrip ((beforeSDS (beforeParen comment)).map Char.toLower)

/-- One record of the decompressed metadata JSON array.  `icon.get(k, '')`
returns `''` when the key is missing, which we model with `Option.getD`
below; a missing field and an empty string behave identically. -/
structure IconRecord where
  codepoint : Option (List Char)
  name : Option (List Char)

/-- Body of the loop in `build_codepoint_lookup`: for a record with a
truthy (nonempty) codepoint and name, bind the upper-cased codepoint to
the name, overwriting any earlier binding; otherwise skip the record. -/
def insertIcon (lookup : List Char → Option (List Char)) (icon : IconRecord) :
    List Char → Option (List Char) :=
  let cp := (icon.codepoint.getD []).map Char.toUpper
  let name := icon.name.getD []
  if cp ≠ [] ∧ name ≠ [] then (fun k => if k = cp then some name else lookup k)
  else lookup

/-- Embedding of `build_codepoint_lookup`: fold `insertIcon` over the
records, starting from the empty dictionary. -/
def build_codepoint_lookup (mdi_data : List IconRecord) : List Char → Option (List Char) :=
  mdi_data.foldl insertIcon (fun _ => none)

/-- Selector used by the spec-worded lookup: keep a record exactly when
it has a (nonempty) codepoint and name and its upper-cased codepoint
equals the key. -/
def selIcon (cp : List Char) (icon : IconRecord) : Option (List Char) :=
  let c := (icon.codepoint.getD []).map Char.toUpper
  let n := icon.name.getD []
  if c ≠ [] ∧ n ≠ [] ∧ c = cp then some n else none

/-- Lookup as the specification words it: for a codepoint key, the result
is the name of the last record, in source order, that has both a
codepoint and a name and whose upper-cased codepoint equals the key. -/
def lookupSpec (mdi_data : List IconRecord) (cp : List Char) : Option (List Char) :=
  (mdi_data.filterMap (selIcon cp)).getLast?

/-!
Embedding of the regular expression
`MDI_ICONS\+?=.*"?,?(0x[A-Fa-f0-9]+)"?\s*#\s*(.+)` as applied by
`pattern.search(line)`.  The functions below implement the exact
backtracking search: the leftmost starting position wins, `.*` and the
quantified classes are greedy (longest alternative tried first), the
optional literals try the consuming branch first, and `.` matches every
character except the newline. -/

/-- Tail of the pattern after `#`: greedy `\s*` followed by the capture
`(.+)`.  The star prefers to consume a whitespace character and
backtracks to starting the capture at it only when the remainder has no
match. -/
def matchSpacesThenComment : List Char → Option (List Char)
  | [] => none
  | c :: rest =>
    if pyIsSpace c then
      match matchSpacesThenComment rest with
      | some g => some g
      | none =>
        if c ≠ '\n' then some (c :: rest.takeWhile (fun d => d ≠ '\n')) else none
    else
      if c ≠ '\n' then some (c :: rest.takeWhile (fun d => d ≠ '\n')) else none

/-- Pattern fragment `\s*#\s*(.+)`.  The first `\s*` is deterministic
because `#` is not a whitespace character. -/
def matchHash (s : List Char) : Option (List Char) :=
  match s.dropWhile pyIsSpace with
  | '#' :: rest => matchSpacesThenComment rest
  | _ => none

/-- Pattern fragment `"?\s*#\s*(.+)` following the hex digits: the
optional quote tries the consuming branch first. -/
def matchAfterHex (s : List Char) : Option (List Char) :=
  match s with
  | '"' :: rest =>
    (match matchHash rest with
     | some g => some g
     | none => matchHash s)
  | _ => matchHash s

/-- Greedy `[A-Fa-f0-9]+` followed by `"?\s*#\s*(.+)`: try consuming `k`
hex digits, longest first, down to one.  Returns the digits consumed and
the comment capture. -/
def tryHexLen : Nat → List Char → Option (List Char × List Char)
  | 0, _ => none
  | k + 1, s =>
    match matchAfterHex (s.drop (k + 1)) with
    | some g => some (s.take (k + 1), g)
    | none => tryHexLen k s

/-- Pattern fragment `(0x[A-Fa-f0-9]+)"?\s*#\s*(.+)`.  Returns group 1
(including the `0x` prefix) and group 2. -/
def matchZeroX (s : List Char) : Option (List Char × List Char) :=
  match s with
  | '0' :: 'x' :: rest =>
    (match tryHexLen (rest.takeWhile isHexCh).length rest with
     | some (h, g) => some ('0' :: 'x' :: h, g)
     | none => none)
  | _ => none

/-- Optional comma before the codepoint group. -/
def matchComma (s : List Char) : Option (List Char × List Char) :=
  match s with
  | ',' :: rest =>
    (match matchZeroX rest with
     | some r => some r
     | none => matchZeroX s)
  | _ => matchZeroX s

/-- Optional quote before the optional comma. -/
def matchQuote (s : List Char) : Option (List Char × List Char) :=
  match s with
  | '"' :: rest =>
    (match matchComma rest with
     | some r => some r
     | none => matchComma s)
  | _ => matchComma s

/-- Greedy `.*` before `"?,?(0x…`: try the longest consumed prefix first
(deeper recursion = longer star), never consuming a newline. -/
def matchDotStar (s : List Char) : Option (List Char × List Char) :=
  match s with
  | [] => matchQuote []
  | c :: rest =>
    if c = '\n' then matchQuote (c :: rest)
    else
      match matchDotStar rest with
      | some r => some r
      | none => matchQuote (c :: rest)

/-- Pattern fragment `\+?=` after the literal `MDI_ICONS`.  (When the
optional `+` is present the following character must be `=`; the
non-consuming branch of `\+?` can never succeed on a `+`.) -/
def matchPlusEq (t : List Char) : Option (List Char × List Char) :=
  match t with
  | '+' :: '=' :: r => matchDotStar r
  | '=' :: r => matchDotStar r
  | _ => none

/-- Attempt to match the whole pattern at the start of `s`. -/
def matchMDIAt (s : List Char) : Option (List Char × List Char) :=
  if ('M' :: 'D' :: 'I' :: '_' :: 'I' :: 'C' :: 'O' :: 'N' :: 'S' :: []).isPrefixOf s then
    matchPlusEq (s.drop 9)
  else none

/-- `pattern.search(line)`: try every starting position left to right. -/
def searchMDI : List Char → Option (List Char × List Char)
  | [] => none
  | c :: rest =>
    match matchMDIAt (c :: rest) with
    | some r => some r
    | none => searchMDI rest

/-- Python's `str.replace('0X', '')`: delete every (non-overlapping,
left-to-right) occurrence of the two-character string `0X`. -/
def replace0X : List Char → List Char
  | [] => []
  | '0' :: 'X' :: rest2 => replace0X rest2
  | c :: rest => c :: replace0X rest

/-- One parsed declaration, as built by `parse_regen_script`:
`{'line': n, 'codepoint': …, 'comment': …, 'raw': line.strip()}`. -/
structure DeclEntry where
  line : Nat
  codepoint : List Char
  comment : List Char
  raw : List Char
deriving DecidableEq, Repr

/-- Processing of a single line of the declaration file inside
`parse_regen_script`: on a match, the codepoint is
`group(1).upper().replace('0X', '')` and the comment is
`group(2).strip()`. -/
def parseLine (n : Nat) (l : List Char) : Option DeclEntry :=
  match searchMDI l with
  | some (g1, g2) => some ⟨n, replace0X (g1.map Char.toUpper), pyStrip g2, pyStrip l⟩
  | none => none

/-- `parseLine` on a numbered line (the shape of the items produced by
Python's `enumerate(f, 1)`). -/
def parsePair (p : Nat × List Char) : Option DeclEntry :=
  parseLine p.1 p.2

/-- Test of whether the pattern search succeeds on a numbered line. -/
def lineMatches (p : Nat × List Char) : Bool :=
  (searchMDI p.2).isSome

/-- Embedding of `parse_regen_script`: lines are numbered from 1 and each
matching line contributes one entry, in file order. -/
def parse_regen_script (lines : List (List Char)) : List DeclEntry :=
  (lines.enumFrom 1).filterMap parsePair

/-- Classification of one declaration, as recorded by the loop in `main`
(`OK` only bumps a counter; `INVALID` and `MISMATCH` are appended to the
error list with the shown fields). -/
inductive VResult where
  | OK : Nat → List Char → VResult
  | INVALID : Nat → List Char → List Char → VResult
  | MISMATCH : Nat → List Char → List Char → List Char → List Char → VResult
deriving DecidableEq, Repr

/-- The body of the verification loop in `main` for a single entry:
absent codepoint → `INVALID`; exact normalized equality → `OK`;
`actual_name.startswith(claimed_normalized) or claimed_normalized in
actual_name` → `OK`; otherwise `MISMATCH` recording `claimed_name` (the
normalizer output, before hyphen canonicalization) and `actual_name`. -/
def classifyEntry (idx : List Char → Option (List Char)) (e : DeclEntry) : VResult :=
  let claimed_name := extract_icon_name_from_comment e.comment
  match idx e.codepoint with
  | none => .INVALID e.line e.codepoint e.comment
  | some actual_name =>
    let claimed_normalized := hyphenate claimed_name
    if claimed_normalized = actual_name then .OK e.line e.codepoint
    else if claimed_normalized.isPrefixOf actual_name || strContains actual_name claimed_normalized then
      .OK e.line e.codepoint
    else .MISMATCH e.line e.codepoint claimed_name actual_name e.comment

/-- Test for the `OK` classification (the branch of the loop in `main`
that only increments `ok_count`). -/
def isOKResult : VResult → Bool
  | .OK _ _ => true
  | _ => false

/-- One iteration of the verification loop in `main`: an `OK`
classification bumps `ok_count`, anything else is appended to the error
list. -/
def verifyStep (idx : List Char → Option (List Char)) (acc : List VResult × Nat)
    (e : DeclEntry) : List VResult × Nat :=
  match classifyEntry idx e with
  | .OK _ _ => (acc.1, acc.2 + 1)
  | r => (acc.1 ++ [r], acc.2)

/-- The verification loop of `main`: accumulate the error list (in
encounter order) and the `ok_count`. -/
def verifyEntries (idx : List Char → Option (List Char)) (entries : List DeclEntry) :
    List VResult × Nat :=
  entries.foldl (verifyStep idx) ([], 0)

/-- State of the metadata cache file as `fetch_mdi_metadata` sees it:
missing, present but failing decompression/JSON parsing, or readable
with the given records. -/
inductive MetaFile where
  | missing : MetaFile
  | corrupt : MetaFile
  | good : List IconRecord → MetaFile

/-- Embedding of `main` (and of `sys.exit(main())` together with the
`sys.exit` calls in `fetch_mdi_metadata`): first the declaration-file
existence check (exit 1), then the metadata load (exit 2 on a missing or
unreadable cache), then parse, verify and report, returning exit 1 when
the error list is nonempty and 0 otherwise.  The second component is the
verification outcome (`none` when the run aborted before verifying). -/
def mainRun (regen : Option (List (List Char))) (meta : MetaFile) :
    Nat × Option (List VResult × Nat) :=
  match regen with
  | none => (1, none)
  | some lines =>
    match meta with
    | .missing => (2, none)
    | .corrupt => (2, none)
    | .good data =>
      let idx := build_codepoint_lookup data
      let entries := parse_regen_script lines
      let res := verifyEntries idx entries
      ((if res.1 = [] then 0 else 1), some res)

/-! Character-level lemmas about `Char.toLower`. -/

/-- Unfolding lemma for `Char.toLower`. -/
theorem toLower_def (c : Char) :
    Char.toLower c =
      if c.toNat ≥ 65 ∧ c.toNat ≤ 90 then Char.ofNat (c.toNat + 32) else c := rfl

/-- Either `toLower` leaves a character unchanged, or its result is a
lower-case ASCII letter (codepoint between 97 and 122). -/
theorem toLower_cases (c : Char) :
    Char.toLower c = c ∨ (97 ≤ (Char.toLower c).toNat ∧ (Char.toLower c).toNat ≤ 122) := by
  rw [toLower_def]
  by_cases h : c.toNat ≥ 65 ∧ c.toNat ≤ 90
  · right
    rw [if_pos h]
    have hv : (c.toNat + 32).isValidChar := Or.inl (by omega)
    have hofn : Char.ofNat (c.toNat + 32) = Char.ofNatAux (c.toNat + 32) hv := dif_pos hv
    have htn : (Char.ofNatAux (c.toNat + 32) hv).toNat = c.toNat + 32 := rfl
    rw [hofn, htn]
    omega
  · left
    rw [if_neg h]

/-- `Char.toLower` is idempotent. -/
theorem toLower_toLower (c : Char) : Char.toLower (Char.toLower c) = Char.toLower c := by
  rcases toLower_cases c with h | h
  · rw [h]
    exact h
  · rw [toLower_def (Char.toLower c), if_neg (by omega)]

/-- A character whose codepoint is at most 96 (this covers `'('`, `' '`
and `'-'`) is hit by `toLower` only from itself. -/
theorem eq_of_toLower_eq {c d : Char} (h : Char.toLower c = d) (hd : d.toNat ≤ 96) : c = d := by
  rcases toLower_cases c with h' | h'
  · rw [← h', h]
  · rw [h] at h'
    omega

/-! Lemmas about `pyStrip`. -/

/-- The head of `dropWhile p l`, when present, does not satisfy `p`. -/
theorem dropWhile_head?_false {p : Char → Bool} {l : List Char} {c : Char}
    (h : (l.dropWhile p).head? = some c) : p c = false := by
  have hm := List.head?_dropWhile_not p l
  rw [h] at hm
  exact hm

/-- `dropWhile` is the identity when the head (if any) fails `p`. -/
theorem dropWhile_eq_self_of_head {p : Char → Bool} {l : List Char}
    (h : ∀ c, l.head? = some c → p c = false) : l.dropWhile p = l := by
  cases l with
  | nil => rfl
  | cons a t =>
    have := h a rfl
    rw [List.dropWhile_cons_of_neg]
    simp [this]

/-- `pyStrip` is the identity on a list whose first and last characters
are not whitespace. -/
theorem pyStrip_eq_self {l : List Char}
    (h1 : ∀ c, l.head? = some c → pyIsSpace c = false)
    (h2 : ∀ c, l.getLast? = some c → pyIsSpace c = false) : pyStrip l = l := by
  unfold pyStrip
  rw [dropWhile_eq_self_of_head h1]
  rw [dropWhile_eq_self_of_head (by intro c hc; rw [List.head?_reverse] at hc; exact h2 c hc)]
  exact l.reverse_reverse

/-- The last character of a nonempty suffix agrees with that of the
whole list. -/
theorem getLast?_of_suffix {v w : List Char} (h : v <:+ w) (hv : v ≠ []) :
    v.getLast? = w.getLast? := by
  obtain ⟨t, rfl⟩ := h
  rw [List.getLast?_append]
  cases hvl : v.getLast? with
  | none => exact absurd (List.getLast?_eq_none_iff.mp hvl) hv
  | some c => rfl

/-- The last character of `pyStrip l`, when present, is not whitespace. -/
theorem pyStrip_getLast?_false {l : List Char} {c : Char}
    (h : (pyStrip l).getLast? = some c) : pyIsSpace c = false := by
  unfold pyStrip at h
  rw [List.getLast?_reverse] at h
  exact dropWhile_head?_false h

/-- The first character of `pyStrip l`, when present, is not whitespace. -/
theorem pyStrip_head?_false {l : List Char} {c : Char}
    (h : (pyStrip l).head? = some c) : pyIsSpace c = false := by
  unfold pyStrip at h
  rw [List.head?_reverse] at h
  set u := l.dropWhile pyIsSpace with hu
  have hsuf : u.reverse.dropWhile pyIsSpace <:+ u.reverse := List.dropWhile_suffix pyIsSpace
  have hne : u.reverse.dropWhile pyIsSpace ≠ [] := by
    intro hnil
    rw [hnil] at h
    simp at h
  rw [getLast?_of_suffix hsuf hne] at h
  rw [List.getLast?_reverse] at h
  exact dropWhile_head?_false h

/-- `pyStrip` is idempotent. -/
theorem pyStrip_pyStrip (l : List Char) : pyStrip (pyStrip l) = pyStrip l :=
  pyStrip_eq_self (fun _ h => pyStrip_head?_false h) (fun _ h => pyStrip_getLast?_false h)

/-- `pyStrip l` is an infix of `l`: a prefix of the suffix
`l.dropWhile pyIsSpace`. -/
theorem infix_pyStrip (l : List Char) : pyStrip l <:+: l := by
  have h1 : l.dropWhile pyIsSpace <:+ l := List.dropWhile_suffix pyIsSpace
  have h2 : pyStrip l <+: l.dropWhile pyIsSpace := by
    unfold pyStrip
    set u := l.dropWhile pyIsSpace
    have := List.dropWhile_suffix (l := u.reverse) pyIsSpace
    rw [← List.reverse_prefix] at this
    simpa using this
  exact h2.isInfix.trans h1.isInfix

/-- Membership in `pyStrip l` implies membership in `l`. -/
theorem mem_of_mem_pyStrip {l : List Char} {c : Char} (h : c ∈ pyStrip l) : c ∈ l :=
  (infix_pyStrip l).sublist.subset h

/-! Lemmas about `beforeSDS` and `hasSDS`. -/

/-- `beforeSDS l` is a prefix of `l`. -/
theorem prefix_beforeSDS (l : List Char) : beforeSDS l <+: l := by
  induction l with
  | nil => exact List.prefix_refl _
  | cons c rest ih =>
    rw [beforeSDS]
    split
    · exact List.nil_prefix
    · exact (List.prefix_cons_inj c).mpr ih

/-- A two-element `take` is preserved when passing to a longer list with
the same prefix. -/
theorem prefix_take_two {w u : List Char} (h : w <+: u) {a b : Char}
    (hw : w.take 2 = [a, b]) : u.take 2 = [a, b] := by
  obtain ⟨t, rfl⟩ := h
  match w, hw with
  | [], hw => exact absurd hw (by simp)
  | [x], hw => exact absurd hw (by simp)
  | x :: y :: w', hw =>
    simp only [List.take] at hw ⊢
    exact hw

/-- Adding a head preserves an occurrence of the space-hyphen-space
pattern. -/
theorem hasSDS_cons_of {c : Char} {rest : List Char} (h : hasSDS rest = true) :
    hasSDS (c :: rest) = true := by
  rw [hasSDS]
  split
  · rfl
  · exact h

/-- An occurrence of the pattern in a list survives appending on the
right. -/
theorem hasSDS_append_right {m : List Char} (t : List Char) (h : hasSDS m = true) :
    hasSDS (m ++ t) = true := by
  induction m with
  | nil => exact absurd h (by simp [hasSDS])
  | cons c m' ih =>
    rw [hasSDS] at h
    rw [List.cons_append, hasSDS]
    split
    · rfl
    · rename_i hneg
      split at h
      · rename_i hpos
        exact absurd ⟨hpos.1, prefix_take_two (List.prefix_append m' t) hpos.2⟩ hneg
      · exact ih h

/-- An occurrence of the pattern in a list survives prepending on the
left. -/
theorem hasSDS_append_left (s : List Char) {m : List Char} (h : hasSDS m = true) :
    hasSDS (s ++ m) = true := by
  induction s with
  | nil => exact h
  | cons c s' ih => exact hasSDS_cons_of ih

/-- An occurrence of the pattern in an infix gives one in the whole
list. -/
theorem hasSDS_of_part {m l : List Char} (hm : hasSDS m = true) (h : m <:+: l) :
    hasSDS l = true := by
  obtain ⟨s, t, rfl⟩ := h
  rw [List.append_assoc]
  exact hasSDS_append_left s (hasSDS_append_right t hm)

/-- Pattern-freeness passes to infixes. -/
theorem hasSDS_false_of_part {m l : List Char} (h : m <:+: l) (hl : hasSDS l = false) :
    hasSDS m = false := by
  by_contra hm
  rw [hasSDS_of_part (Bool.of_not_eq_false hm) h] at hl
  exact absurd hl (by simp)

/-- The output of `beforeSDS` contains no space-hyphen-space pattern. -/
theorem hasSDS_beforeSDS (l : List Char) : hasSDS (beforeSDS l) = false := by
  induction l with
  | nil => rfl
  | cons c rest ih =>
    rw [beforeSDS]
    split
    · rfl
    · rename_i hneg
      rw [hasSDS]
      split
      · rename_i hpos
        exact absurd ⟨hpos.1, prefix_take_two (prefix_beforeSDS rest) hpos.2⟩ hneg
      · exact ih

/-- On a pattern-free list, `beforeSDS` is the identity. -/
theorem beforeSDS_eq_self {l : List Char} (h : hasSDS l = false) : beforeSDS l = l := by
  induction l with
  | nil => rfl
  | cons c rest ih =>
    rw [hasSDS] at h
    rw [beforeSDS]
    split
    · rename_i hpos
      rw [if_pos hpos] at h
      exact absurd h (by simp)
    · rename_i hneg
      rw [if_neg hneg] at h
      rw [ih h]

/-- `Char.toLower` cannot create a space-hyphen-space pattern. -/
theorem hasSDS_map_toLower {l : List Char} (h : hasSDS l = false) :
    hasSDS (l.map Char.toLower) = false := by
  induction l with
  | nil => rfl
  | cons c rest ih =>
    rw [hasSDS] at h
    rw [List.map_cons, hasSDS]
    split
    · rename_i hpos
      rw [← List.map_take] at hpos
      have hc : c = ' ' := eq_of_toLower_eq hpos.1 (by decide)
      have hmt := hpos.2
      rcases hq : rest.take 2 with _ | ⟨d1, rr⟩
      · rw [hq] at hmt
        simp at hmt
      · rcases rr with _ | ⟨d2, r'⟩
        · rw [hq] at hmt
          simp at hmt
        · rw [hq] at hmt
          simp only [List.map_cons, List.cons.injEq] at hmt
          obtain ⟨h1, h2, h3⟩ := hmt
          have hd1 : d1 = '-' := eq_of_toLower_eq h1 (by decide)
          have hd2 : d2 = ' ' := eq_of_toLower_eq h2 (by decide)
          have hr' : r' = [] := by
            have := congrArg List.length h3
            simpa using this
          rw [if_pos ⟨hc, by rw [hq, hd1, hd2, hr']⟩] at h
          exact absurd h (by simp)
    · split at h
      · exact absurd h (by simp)
      · exact ih h

/-! Properties of the normalizer output, leading to idempotence. -/

/-- Unfolding lemma for `extract_icon_name_from_comment`. -/
theorem extract_eq (s : List Char) :
    extract_icon_name_from_comment s =
      pyStrip ((pyStrip (beforeSDS (pyStrip (beforeParen s)))).map Char.toLower) := rfl

/-- Stripping the normalizer output changes nothing. -/
theorem pyStrip_extract (s : List Char) :
    pyStrip (extract_icon_name_from_comment s) = extract_icon_name_from_comment s := by
  rw [extract_eq]
  exact pyStrip_pyStrip _

/-- The normalizer output contains no space-hyphen-space pattern. -/
theorem hasSDS_extract (s : List Char) :
    hasSDS (extract_icon_name_from_comment s) = false := by
  rw [extract_eq]
  exact hasSDS_false_of_part (infix_pyStrip _)
    (hasSDS_map_toLower (hasSDS_false_of_part (infix_pyStrip _) (hasSDS_beforeSDS _)))

/-- Every character of the normalizer output is the lower-casing of some
character of an intermediate stage. -/
theorem extract_mem_shape {s : List Char} {c : Char}
    (h : c ∈ extract_icon_name_from_comment s) :
    ∃ c', c = Char.toLower c' ∧ c' ∈ pyStrip (beforeParen s) := by
  rw [extract_eq] at h
  have h1 := mem_of_mem_pyStrip h
  rw [List.mem_map] at h1
  obtain ⟨c', hc', rfl⟩ := h1
  refine ⟨c', rfl, ?_⟩
  exact (prefix_beforeSDS _).subset (mem_of_mem_pyStrip hc')

/-- The normalizer output contains no opening parenthesis. -/
theorem extract_no_paren {s : List Char} {c : Char}
    (h : c ∈ extract_icon_name_from_comment s) : c ≠ '(' := by
  obtain ⟨c', rfl, hc'⟩ := extract_mem_shape h
  intro habs
  have : c' = '(' := eq_of_toLower_eq habs (by decide)
  subst this
  have h2 := List.mem_takeWhile_imp (mem_of_mem_pyStrip hc')
  simp at h2

/-- Every character of the normalizer output is fixed by `toLower`. -/
theorem extract_lower_fixed {s : List Char} {c : Char}
    (h : c ∈ extract_icon_name_from_comment s) : Char.toLower c = c := by
  obtain ⟨c', rfl, _⟩ := extract_mem_shape h
  exact toLower_toLower c'

/-- [C7] The Name Normalizer is idempotent: applying
`extract_icon_name_from_comment` to its own output returns the output
unchanged. -/
theorem c7_normalizer_idem (s : List Char) :
    extract_icon_name_from_comment (extract_icon_name_from_comment s) =
      extract_icon_name_from_comment s := by
  set r := extract_icon_name_from_comment s with hr
  have hB : pyStrip r = r := pyStrip_extract s
  have hA : beforeParen r = r := by
    apply List.takeWhile_eq_self_iff.mpr
    intro c hc
    simpa using extract_no_paren hc
  have hC : beforeSDS r = r := beforeSDS_eq_self (hasSDS_extract s)
  have hE : r.map Char.toLower = r := by
    have : r.map Char.toLower = r.map id := List.map_congr_left (fun c hc => extract_lower_fixed hc)
    rw [this, List.map_id]
  calc extract_icon_name_from_comment r
      = pyStrip ((pyStrip (beforeSDS (pyStrip (beforeParen r)))).map Char.toLower) :=
        extract_eq r
    _ = r := by rw [hA, hB, hC, hB, hE, hB]

/-! Claims about the per-entry verifier. -/

/-- [C3] A declaration whose codepoint is absent from the index is
classified `INVALID`, for every comment (so no name comparison can
influence the outcome), and the recorded fields are the entry's line,
codepoint and comment. -/
theorem c3_invalid_absent (idx : List Char → Option (List Char)) (line : Nat)
    (cp comment raw : List Char) (h : idx cp = none) :
    classifyEntry idx ⟨line, cp, comment, raw⟩ = VResult.INVALID line cp comment := by
  simp only [classifyEntry, h]

/-- Witness for `c3_invalid_absent` on a concrete input: the empty index
and an arbitrary comment. -/
theorem c3_witness :
    ((fun _ : List Char => (none : Option (List Char))) "FFFFF".data = none) ∧
      classifyEntry (fun _ => none) ⟨1, "FFFFF".data, "home".data, []⟩ =
        VResult.INVALID 1 "FFFFF".data "home".data :=
  ⟨rfl, c3_invalid_absent (fun _ => none) 1 "FFFFF".data "home".data [] rfl⟩

/-- [C10] A declaration whose codepoint is in the index and whose
normalized claimed name is empty is classified `OK`: the empty string is
a prefix (hence substring) of every actual name. -/
theorem c10_empty_claimed_ok (idx : List Char → Option (List Char)) (e : DeclEntry)
    (actual : List Char) (h : idx e.codepoint = some actual)
    (h0 : hyphenate (extract_icon_name_from_comment e.comment) = []) :
    classifyEntry idx e = VResult.OK e.line e.codepoint := by
  simp only [classifyEntry, h, h0]
  by_cases hac : ([] : List Char) = actual
  · rw [if_pos hac]
  · rw [if_neg hac, if_pos]
    cases actual <;> simp [List.isPrefixOf]

/-- Witness for `c10_empty_claimed_ok`: a comment that is only a
parenthesized description normalizes to the empty string and passes. -/
theorem c10_witness :
    ((fun k : List Char => if k = "F0001".data then some "arrow-up-down".data else none)
        "F0001".data = some "arrow-up-down".data) ∧
      (hyphenate (extract_icon_name_from_comment "(bidirectional vertical)".data) = []) ∧
      classifyEntry (fun k => if k = "F0001".data then some "arrow-up-down".data else none)
        ⟨2, "F0001".data, "(bidirectional vertical)".data, []⟩ =
        VResult.OK 2 "F0001".data :=
  ⟨by decide, by decide,
    c10_empty_claimed_ok _ ⟨2, "F0001".data, "(bidirectional vertical)".data, []⟩
      "arrow-up-down".data (by decide) (by decide)⟩

/-- [C1, amended] For an entry whose codepoint is in the index the
verifier applies exactly three rules in order, first match wins: exact
equality of the hyphen-canonicalized claimed name with the actual name →
`OK`; actual starts with claimed or claimed occurs in actual → `OK`;
otherwise `MISMATCH`, recording the normalizer output (before hyphen
canonicalization) as the claimed name together with the actual name,
which is exactly the index value. -/
theorem c1_match_rules (idx : List Char → Option (List Char)) (e : DeclEntry)
    (actual : List Char) (h : idx e.codepoint = some actual) :
    (hyphenate (extract_icon_name_from_comment e.comment) = actual →
        classifyEntry idx e = VResult.OK e.line e.codepoint) ∧
    (hyphenate (extract_icon_name_from_comment e.comment) ≠ actual →
      ((hyphenate (extract_icon_name_from_comment e.comment)).isPrefixOf actual
          || strContains actual (hyphenate (extract_icon_name_from_comment e.comment))) = true →
        classifyEntry idx e = VResult.OK e.line e.codepoint) ∧
    (hyphenate (extract_icon_name_from_comment e.comment) ≠ actual →
      ((hyphenate (extract_icon_name_from_comment e.comment)).isPrefixOf actual
          || strContains actual (hyphenate (extract_icon_name_from_comment e.comment))) = false →
        classifyEntry idx e =
          VResult.MISMATCH e.line e.codepoint (extract_icon_name_from_comment e.comment)
            actual e.comment) := by
  refine ⟨fun h1 => ?_, fun h1 h2 => ?_, fun h1 h2 => ?_⟩
  · simp only [classifyEntry, h]
    rw [if_pos h1]
  · simp only [classifyEntry, h]
    rw [if_neg h1, if_pos h2]
  · simp only [classifyEntry, h]
    rw [if_neg h1, if_neg (by rw [h2]; simp)]

/-- Witness for `c1_match_rules`: rule 1 fires on an exact name match. -/
theorem c1_witness :
    ((fun k : List Char => if k = "F0006".data then some "account".data else none)
        "F0006".data = some "account".data) ∧
      classifyEntry (fun k => if k = "F0006".data then some "account".data else none)
        ⟨1, "F0006".data, "account".data, []⟩ = VResult.OK 1 "F0006".data :=
  ⟨by decide,
    (c1_match_rules _ ⟨1, "F0006".data, "account".data, []⟩ "account".data (by decide)).1
      (by decide)⟩

/-- [C1, counterexample] With comment `foo_bar` and actual name `zzz`,
rule 3 fires and the recorded claimed name is the normalizer output
`foo_bar`, not the hyphen-canonicalized `foo-bar` required by the claim
as stated. -/
theorem c1_counterexample :
    classifyEntry (fun k => if k = "F0001".data then some "zzz".data else none)
        ⟨7, "F0001".data, "foo_bar".data, []⟩ ≠
      VResult.MISMATCH 7 "F0001".data
        (hyphenate (extract_icon_name_from_comment "foo_bar".data)) "zzz".data "foo_bar".data
    ∧ classifyEntry (fun k => if k = "F0001".data then some "zzz".data else none)
        ⟨7, "F0001".data, "foo_bar".data, []⟩ =
      VResult.MISMATCH 7 "F0001".data
        (extract_icon_name_from_comment "foo_bar".data) "zzz".data "foo_bar".data := by
  exact ⟨by decide, by decide⟩

/-! Claims about the normalizer as described. -/

/-- [C6, counterexample] On the comment `"ab - "` the code returns
`"ab -"` (it strips before searching for the space-hyphen-space pattern)
while the normalizer as the claim words it returns `"ab"`. -/
theorem c6_counterexample :
    extract_icon_name_from_comment "ab - ".data = "ab -".data
    ∧ normalizerClaimed "ab - ".data = "ab".data
    ∧ extract_icon_name_from_comment "ab - ".data ≠ normalizerClaimed "ab - ".data := by
  exact ⟨by decide, by decide, by decide⟩

/-- [C6, amended] The normalizer takes the substring before the first
parenthesis, trims it, takes the substring of that before the first
space-hyphen-space occurrence, trims it, and lowercases and trims the
result; in particular it maps
`"arrow-up-down (bidirectional vertical)"` to `"arrow-up-down"` and
`"close (xmark)"` to `"close"`. -/
theorem c6_normalizer_staged :
    (∀ comment : List Char,
        extract_icon_name_from_comment comment =
          pyStrip ((pyStrip (beforeSDS (pyStrip (beforeParen comment)))).map Char.toLower))
    ∧ extract_icon_name_from_comment "arrow-up-down (bidirectional vertical)".data =
        "arrow-up-down".data
    ∧ extract_icon_name_from_comment "close (xmark)".data = "close".data := by
  exact ⟨fun comment => extract_eq comment, by decide, by decide⟩

/-! Claim about determinism of the whole run. -/

/-- [C8] The run is deterministic in its two inputs: equal metadata and
declaration contents produce equal verification results and exit codes. -/
theorem c8_deterministic (r₁ r₂ : Option (List (List Char))) (m₁ m₂ : MetaFile)
    (hr : r₁ = r₂) (hm : m₁ = m₂) : mainRun r₁ m₁ = mainRun r₂ m₂ := by
  rw [hr, hm]

/-- Witness for `c8_deterministic` on a concrete end-to-end input. -/
theorem c8_witness :
    mainRun (some ["MDI_ICONS+=\",0xF0006\" # account".data])
        (MetaFile.good [⟨some "f0006".data, some "account".data⟩]) =
      mainRun (some ["MDI_ICONS+=\",0xF0006\" # account".data])
        (MetaFile.good [⟨some "f0006".data, some "account".data⟩]) :=
  c8_deterministic _ _ _ _ rfl rfl

/-! Claim about the lookup builder. -/

/-- Folding `insertIcon` over records refines the spec-worded
last-record-wins lookup, for every starting dictionary. -/
theorem build_lookup_aux (data : List IconRecord) :
    ∀ (f : List Char → Option (List Char)) (cp : List Char),
      data.foldl insertIcon f cp = (lookupSpec data cp).or (f cp) := by
  induction data with
  | nil =>
    intro f cp
    simp [lookupSpec]
  | cons icon data ih =>
    intro f cp
    rw [List.foldl_cons, ih]
    by_cases h2 : ((icon.codepoint.getD []).map Char.toUpper ≠ [] ∧ icon.name.getD [] ≠ [])
    · by_cases h3 : (icon.codepoint.getD []).map Char.toUpper = cp
      · have hfa : selIcon cp icon = some (icon.name.getD []) := by
          show (if (icon.codepoint.getD []).map Char.toUpper ≠ [] ∧ icon.name.getD [] ≠ [] ∧
              (icon.codepoint.getD []).map Char.toUpper = cp
            then some (icon.name.getD []) else none) = some (icon.name.getD [])
          rw [if_pos ⟨h2.1, h2.2, h3⟩]
        have hsel : lookupSpec (icon :: data) cp =
            (lookupSpec data cp).or (some (icon.name.getD [])) := by
          unfold lookupSpec
          rw [List.filterMap_cons_some hfa, ← List.singleton_append,
            List.getLast?_append]
          simp
        have hins : insertIcon f icon cp = some (icon.name.getD []) := by
          show (if (icon.codepoint.getD []).map Char.toUpper ≠ [] ∧ icon.name.getD [] ≠ []
            then (fun k => if k = (icon.codepoint.getD []).map Char.toUpper
              then some (icon.name.getD []) else f k)
            else f) cp = some (icon.name.getD [])
          rw [if_pos h2]
          show (if cp = (icon.codepoint.getD []).map Char.toUpper
            then some (icon.name.getD []) else f cp) = some (icon.name.getD [])
          rw [if_pos h3.symm]
        rw [hsel, hins]
        cases lookupSpec data cp <;> rfl
      · have hfa : selIcon cp icon = (none : Option (List Char)) := by
          show (if (icon.codepoint.getD []).map Char.toUpper ≠ [] ∧ icon.name.getD [] ≠ [] ∧
              (icon.codepoint.getD []).map Char.toUpper = cp
            then some (icon.name.getD []) else none) = none
          rw [if_neg (fun hx => h3 hx.2.2)]
        have hsel : lookupSpec (icon :: data) cp = lookupSpec data cp := by
          unfold lookupSpec
          rw [List.filterMap_cons_none hfa]
        have hins : insertIcon f icon cp = f cp := by
          show (if (icon.codepoint.getD []).map Char.toUpper ≠ [] ∧ icon.name.getD [] ≠ []
            then (fun k => if k = (icon.codepoint.getD []).map Char.toUpper
              then some (icon.name.getD []) else f k)
            else f) cp = f cp
          rw [if_pos h2]
          show (if cp = (icon.codepoint.getD []).map Char.toUpper
            then some (icon.name.getD []) else f cp) = f cp
          rw [if_neg (fun hx => h3 hx.symm)]
        rw [hsel, hins]
    · have hfa : selIcon cp icon = (none : Option (List Char)) := by
        show (if (icon.codepoint.getD []).map Char.toUpper ≠ [] ∧ icon.name.getD [] ≠ [] ∧
            (icon.codepoint.getD []).map Char.toUpper = cp
          then some (icon.name.getD []) else none) = none
        rw [if_neg (fun hx => h2 ⟨hx.1, hx.2.1⟩)]
      have hsel : lookupSpec (icon :: data) cp = lookupSpec data cp := by
        unfold lookupSpec
        rw [List.filterMap_cons_none hfa]
      have hins : insertIcon f icon cp = f cp := by
        show (if (icon.codepoint.getD []).map Char.toUpper ≠ [] ∧ icon.name.getD [] ≠ []
          then (fun k => if k = (icon.codepoint.getD []).map Char.toUpper
            then some (icon.name.getD []) else f k)
          else f) cp = f cp
        rw [if_neg h2]
      rw [hsel, hins]

/-- [C5] The lookup builder skips records without a (nonempty) codepoint
or name, upper-cases codepoints before keying, lets the last record win
on duplicate keys, and lookup returns exactly the stored name: the built
dictionary agrees with the spec-worded last-retained-record lookup at
every key. -/
theorem c5_lookup_lastwins (data : List IconRecord) (cp : List Char) :
    build_codepoint_lookup data cp = lookupSpec data cp := by
  unfold build_codepoint_lookup
  rw [build_lookup_aux data (fun _ => none) cp]
  cases lookupSpec data cp <;> rfl

/-! Claim that every entry is classified exactly once. -/

/-- Unrolling of the verification loop: the final error list extends the
accumulator with the non-`OK` classifications in order, and the counter
adds one per `OK`. -/
theorem verify_foldl_aux (idx : List Char → Option (List Char)) (entries : List DeclEntry) :
    ∀ acc : List VResult × Nat,
      entries.foldl (verifyStep idx) acc =
        (acc.1 ++ entries.filterMap (fun e =>
            match classifyEntry idx e with
            | .OK _ _ => none
            | r => some r),
          acc.2 + entries.countP (fun e => isOKResult (classifyEntry idx e))) := by
  induction entries with
  | nil =>
    intro acc
    simp
  | cons e es ih =>
    intro acc
    rw [List.foldl_cons, ih]
    cases hc : classifyEntry idx e with
    | OK l cp =>
      simp only [verifyStep, hc, List.filterMap_cons, List.countP_cons, isOKResult]
      refine Prod.ext rfl ?_
      simp
      omega
    | INVALID l cp cm =>
      simp only [verifyStep, hc, List.filterMap_cons, List.countP_cons, isOKResult]
      refine Prod.ext ?_ ?_
      · simp
      · simp
    | MISMATCH l cp cl ac cm =>
      simp only [verifyStep, hc, List.filterMap_cons, List.countP_cons, isOKResult]
      refine Prod.ext ?_ ?_
      · simp
      · simp

/-- Counting lemma: `OK` entries plus error entries exhaust the input. -/
theorem count_ok_add_errs (idx : List Char → Option (List Char)) (entries : List DeclEntry) :
    entries.countP (fun e => isOKResult (classifyEntry idx e)) +
      (entries.filterMap (fun e =>
        match classifyEntry idx e with
        | .OK _ _ => none
        | r => some r)).length = entries.length := by
  induction entries with
  | nil => rfl
  | cons e es ih =>
    cases hc : classifyEntry idx e with
    | OK l cp =>
      simp only [isOKResult] at ih ⊢
      simp only [List.countP_cons, List.filterMap_cons, hc, List.length_cons]
      simp
      omega
    | INVALID l cp cm =>
      simp only [isOKResult] at ih ⊢
      simp only [List.countP_cons, List.filterMap_cons, hc, List.length_cons]
      simp
      omega
    | MISMATCH l cp cl ac cm =>
      simp only [isOKResult] at ih ⊢
      simp only [List.countP_cons, List.filterMap_cons, hc, List.length_cons]
      simp
      omega

/-- [C9] Every parsed entry is classified exactly once: the error list
is precisely the in-order sequence of non-`OK` classifications of the
entries, `ok_count` counts exactly the `OK` classifications, and
`ok_count` plus the number of reported errors equals the number of
entries. -/
theorem c9_one_result_each (idx : List Char → Option (List Char)) (entries : List DeclEntry) :
    (verifyEntries idx entries).1 =
        entries.filterMap (fun e =>
          match classifyEntry idx e with
          | .OK _ _ => none
          | r => some r)
    ∧ (verifyEntries idx entries).2 =
        entries.countP (fun e => isOKResult (classifyEntry idx e))
    ∧ (verifyEntries idx entries).2 + (verifyEntries idx entries).1.length =
        entries.length := by
  unfold verifyEntries
  rw [verify_foldl_aux idx entries ([], 0)]
  refine ⟨by simp, by simp, ?_⟩
  simpa using count_ok_add_errs idx entries

/-! Claim about the exit codes. -/

/-- [C2, amended] Exit code 2 occurs exactly when the declaration file
is present and the metadata cache is missing or unreadable (the
declaration-file check runs first, so when both are missing the exit
code is 1), and in that case the run aborts before any comparison; exit
code 0 occurs exactly when both inputs are readable and no verification
error was found; exit code 1 occurs exactly when the declaration file is
missing or some verification error was found. -/
theorem c2_exit_codes (regen : Option (List (List Char))) (meta : MetaFile) :
    ((mainRun regen meta).1 = 2 ↔
        (regen ≠ none ∧ (meta = MetaFile.missing ∨ meta = MetaFile.corrupt)))
    ∧ ((mainRun regen meta).1 = 0 ↔
        (∃ lines data, regen = some lines ∧ meta = MetaFile.good data ∧
          (verifyEntries (build_codepoint_lookup data) (parse_regen_script lines)).1 = []))
    ∧ ((mainRun regen meta).1 = 1 ↔
        (regen = none ∨ ∃ lines data, regen = some lines ∧ meta = MetaFile.good data ∧
          (verifyEntries (build_codepoint_lookup data) (parse_regen_script lines)).1 ≠ []))
    ∧ ((mainRun regen meta).1 = 2 → (mainRun regen meta).2 = none) := by
  cases regen with
  | none =>
    cases meta <;> simp [mainRun]
  | some lines =>
    cases meta with
    | missing => simp [mainRun]
    | corrupt => simp [mainRun]
    | good data =>
      by_cases herr :
          (verifyEntries (build_codepoint_lookup data) (parse_regen_script lines)).1 = [] <;>
        simp [mainRun, herr]

/-- Witness for `c2_exit_codes`: with the declaration file present and
the cache missing the exit code is 2 and the run aborts with no
verification results. -/
theorem c2_witness :
    (mainRun (some []) MetaFile.missing).1 = 2 ∧
      (mainRun (some []) MetaFile.missing).2 = none :=
  ⟨rfl, (c2_exit_codes (some []) MetaFile.missing).2.2.2 rfl⟩

/-- [C2, counterexample] When both the declaration file and the metadata
cache are missing the exit code is 1, not the 2 required by the claim's
"2 if and only if the cache is missing" reading. -/
theorem c2_counterexample :
    (mainRun none MetaFile.missing).1 = 1 ∧ (mainRun none MetaFile.missing).1 ≠ 2 := by
  exact ⟨rfl, by decide⟩

/-! Lemmas on the shape of the regex captures, for the parser claim. -/

/-- Taking at most the length of a prefix from the longer list gives the
same result as taking from the prefix. -/
theorem prefix_take_eq {w u : List Char} (h : w <+: u) {n : Nat} (hn : n ≤ w.length) :
    u.take n = w.take n := by
  obtain ⟨t, rfl⟩ := h
  exact List.take_append_of_le_length hn

/-- A successful `tryHexLen` consumed a nonempty run of hex digits,
provided the tried length is within the leading hex run. -/
theorem tryHexLen_shape :
    ∀ (k : Nat) (s : List Char), k ≤ (s.takeWhile isHexCh).length →
      ∀ {hh g : List Char}, tryHexLen k s = some (hh, g) →
        hh ≠ [] ∧ (∀ c ∈ hh, isHexCh c = true) := by
  intro k
  induction k with
  | zero =>
    intro s _ hh g h
    exact absurd h (by simp [tryHexLen])
  | succ k ih =>
    intro s hk hh g h
    rw [tryHexLen] at h
    split at h
    · rename_i g' hm
      injection h with h'
      injection h' with h1 h2
      subst h1
      constructor
      · intro hnil
        rcases List.take_eq_nil_iff.mp hnil with h0 | h0
        · exact absurd h0 (by omega)
        · rw [h0] at hk
          simp at hk
      · intro c hc
        rw [prefix_take_eq (List.takeWhile_prefix isHexCh) hk] at hc
        exact List.mem_takeWhile_imp ((List.take_prefix _ _).subset hc)
    · exact ih s (by omega) h

/-- A successful `matchZeroX` returns a group of the form `0x` followed
by a nonempty run of hex digits. -/
theorem matchZeroX_shape {s g1 g2 : List Char} (h : matchZeroX s = some (g1, g2)) :
    ∃ hx, g1 = '0' :: 'x' :: hx ∧ hx ≠ [] ∧ (∀ c ∈ hx, isHexCh c = true) := by
  rw [matchZeroX.eq_def] at h
  split at h
  · rename_i rest
    split at h
    · rename_i hm
      injection h with h'
      injection h' with h1 h2
      obtain ⟨hne, hhex⟩ := tryHexLen_shape _ rest (Nat.le_refl _) hm
      exact ⟨_, h1.symm, hne, hhex⟩
    · exact absurd h (by simp)
  · exact absurd h (by simp)

/-- `matchComma` only returns values produced by `matchZeroX`. -/
theorem matchComma_shape {s : List Char} {r : List Char × List Char}
    (h : matchComma s = some r) : ∃ s', matchZeroX s' = some r := by
  rw [matchComma.eq_def] at h
  split at h
  · rename_i rest
    split at h
    · rename_i r' hm
      injection h with h'
      exact ⟨rest, by rw [hm, h']⟩
    · exact ⟨_, h⟩
  · exact ⟨_, h⟩

/-- `matchQuote` only returns values produced by `matchZeroX`. -/
theorem matchQuote_shape {s : List Char} {r : List Char × List Char}
    (h : matchQuote s = some r) : ∃ s', matchZeroX s' = some r := by
  rw [matchQuote.eq_def] at h
  split at h
  · rename_i rest
    split at h
    · rename_i r' hm
      injection h with h'
      exact matchComma_shape (by rw [hm, h'])
    · exact matchComma_shape h
  · exact matchComma_shape h

/-- `matchDotStar` only returns values produced by `matchZeroX`. -/
theorem matchDotStar_shape :
    ∀ {s : List Char} {r : List Char × List Char},
      matchDotStar s = some r → ∃ s', matchZeroX s' = some r := by
  intro s
  induction s with
  | nil =>
    intro r h
    rw [matchDotStar] at h
    exact matchQuote_shape h
  | cons c rest ih =>
    intro r h
    rw [matchDotStar] at h
    split at h
    · exact matchQuote_shape h
    · split at h
      · rename_i r' hm
        injection h with h'
        exact ih (by rw [hm, h'])
      · exact matchQuote_shape h

/-- `matchPlusEq` only returns values produced by `matchZeroX`. -/
theorem matchPlusEq_shape {t : List Char} {r : List Char × List Char}
    (h : matchPlusEq t = some r) : ∃ s', matchZeroX s' = some r := by
  rw [matchPlusEq.eq_def] at h
  split at h
  · exact matchDotStar_shape h
  · exact matchDotStar_shape h
  · exact absurd h (by simp)

/-- `searchMDI` only returns values produced by `matchZeroX`: the first
capture is `0x` followed by a nonempty run of hex digits. -/
theorem searchMDI_group_shape :
    ∀ {l g1 g2 : List Char}, searchMDI l = some (g1, g2) →
      ∃ hx, g1 = '0' :: 'x' :: hx ∧ hx ≠ [] ∧ (∀ c ∈ hx, isHexCh c = true) := by
  intro l
  induction l with
  | nil =>
    intro g1 g2 h
    exact absurd h (by simp [searchMDI])
  | cons c rest ih =>
    intro g1 g2 h
    rw [searchMDI] at h
    split at h
    · rename_i r' hm
      injection h with h'
      rw [h'] at hm
      rw [matchMDIAt] at hm
      split at hm
      · obtain ⟨s', hs'⟩ := matchPlusEq_shape hm
        exact matchZeroX_shape hs'
      · exact absurd hm (by simp)
    · exact ih h

/-! Lemmas about upper-casing and the `0X` replacement. -/

/-- Evaluation of `Char.ofNat` below the surrogate range. -/
theorem toNat_Char_ofNat {m : Nat} (hm : m < 55296) : (Char.ofNat m).toNat = m := by
  have hv : m.isValidChar := Or.inl hm
  rw [show Char.ofNat m = Char.ofNatAux m hv from dif_pos hv]
  rfl

/-- Unfolding lemma for `Char.toUpper`. -/
theorem toUpper_def (c : Char) :
    Char.toUpper c =
      if c.toNat ≥ 97 ∧ c.toNat ≤ 122 then Char.ofNat (c.toNat - 32) else c := rfl

/-- The numeric ranges of the hex-digit character class. -/
theorem isHexCh_ranges {c : Char} (hc : isHexCh c = true) :
    (48 ≤ c.toNat ∧ c.toNat ≤ 57) ∨ (97 ≤ c.toNat ∧ c.toNat ≤ 102) ∨
      (65 ≤ c.toNat ∧ c.toNat ≤ 70) := by
  unfold isHexCh at hc
  split_ifs at hc with h1 h2 h3
  · exact Or.inl h1
  · exact Or.inr (Or.inl h2)
  · exact Or.inr (Or.inr h3)

/-- Upper-casing a hex digit never yields the letter `X`. -/
theorem toUpper_hex_ne_X {c : Char} (hc : isHexCh c = true) : Char.toUpper c ≠ 'X' := by
  rcases isHexCh_ranges hc with h | h | h <;> rw [toUpper_def] <;> intro habs
  · rw [if_neg (by omega)] at habs
    have := congrArg Char.toNat habs
    rw [show ('X').toNat = 88 from rfl] at this
    omega
  · rw [if_pos (by omega)] at habs
    have := congrArg Char.toNat habs
    rw [toNat_Char_ofNat (by omega), show ('X').toNat = 88 from rfl] at this
    omega
  · rw [if_neg (by omega)] at habs
    have := congrArg Char.toNat habs
    rw [show ('X').toNat = 88 from rfl] at this
    omega

/-- `replace0X` is the identity on a string without the letter `X`. -/
theorem replace0X_no_X : ∀ (l : List Char), (∀ c ∈ l, c ≠ 'X') → replace0X l = l := by
  intro l
  induction l with
  | nil => intro _; rfl
  | cons c rest ih =>
    intro h
    rw [replace0X.eq_def]
    split
    · rename_i heq
      exact absurd heq (by simp)
    · rename_i heq
      injection heq with h1 h2
      rw [h2] at h
      exact absurd rfl (h 'X' (by simp))
    · rename_i heq
      injection heq with h1 h2
      rw [← h1, ← h2, ih (fun d hd => h d (List.mem_cons_of_mem c hd))]

/-- Upper-casing a captured group `0x…` and deleting `0X` leaves exactly
the upper-cased hex digits. -/
theorem replace0X_upper_hex {hx : List Char} (hhex : ∀ c ∈ hx, isHexCh c = true) :
    replace0X (('0' :: 'x' :: hx).map Char.toUpper) = hx.map Char.toUpper := by
  have h0 : Char.toUpper '0' = '0' := rfl
  have h1 : Char.toUpper 'x' = 'X' := rfl
  rw [List.map_cons, List.map_cons, h0, h1]
  have hstep : replace0X ('0' :: 'X' :: hx.map Char.toUpper) =
      replace0X (hx.map Char.toUpper) := rfl
  rw [hstep]
  refine replace0X_no_X _ ?_
  intro c hc
  rw [List.mem_map] at hc
  obtain ⟨d, hd, rfl⟩ := hc
  exact toUpper_hex_ne_X (hhex d hd)

/-! The parser claim. -/

/-- [C4] Lines on which the pattern search succeeds produce exactly one
entry whose codepoint is the captured hex digits upper-cased (the
`0X` prefix stripped by the `replace`) and whose comment is the trailing
capture trimmed; lines on which the search fails contribute nothing; the
output lists one entry per matching line, in file order, numbered from
one. -/
theorem c4_parse_shape :
    (∀ (n : Nat) (l g1 g2 : List Char), searchMDI l = some (g1, g2) →
        ∃ hx, g1 = '0' :: 'x' :: hx ∧ hx ≠ [] ∧ (∀ c ∈ hx, isHexCh c = true) ∧
          parseLine n l = some ⟨n, hx.map Char.toUpper, pyStrip g2, pyStrip l⟩)
    ∧ (∀ (n : Nat) (l : List Char), searchMDI l = none → parseLine n l = none)
    ∧ (∀ lines : List (List Char),
        parse_regen_script lines = (lines.enumFrom 1).filterMap parsePair
          ∧ (parse_regen_script lines).map DeclEntry.line =
            ((lines.enumFrom 1).filter lineMatches).map Prod.fst) := by
  have hsome : ∀ (n : Nat) (l g1 g2 : List Char), searchMDI l = some (g1, g2) →
      parseLine n l = some ⟨n, replace0X (g1.map Char.toUpper), pyStrip g2, pyStrip l⟩ := by
    intro n l g1 g2 h
    rw [parseLine, h]
  refine ⟨?_, ?_, ?_⟩
  · intro n l g1 g2 h
    obtain ⟨hx, hg1, hne, hhex⟩ := searchMDI_group_shape h
    refine ⟨hx, hg1, hne, hhex, ?_⟩
    rw [hsome n l g1 g2 h, hg1, replace0X_upper_hex hhex]
  · intro n l h
    rw [parseLine, h]
  · intro lines
    refine ⟨rfl, ?_⟩
    rw [parse_regen_script]
    generalize (lines.enumFrom 1) = L
    induction L with
    | nil => rfl
    | cons p L ih =>
      rcases p with ⟨n, l⟩
      cases hs : searchMDI l with
      | none =>
        have hp : parsePair (n, l) = none := by
          show parseLine n l = none
          rw [parseLine, hs]
        have hq : lineMatches (n, l) = false := by
          show (searchMDI l).isSome = false
          rw [hs]
          rfl
        rw [List.filterMap_cons_none hp, List.filter_cons_of_neg (by simp [hq]), ih]
      | some r =>
        rcases r with ⟨g1, g2⟩
        have hp : parsePair (n, l) =
            some ⟨n, replace0X (g1.map Char.toUpper), pyStrip g2, pyStrip l⟩ :=
          hsome n l g1 g2 hs
        have hq : lineMatches (n, l) = true := by
          show (searchMDI l).isSome = true
          rw [hs]
          rfl
        rw [List.filterMap_cons_some hp, List.filter_cons_of_pos (by simp [hq]),
          List.map_cons, List.map_cons, ih]

/-- Witness for `c4_parse_shape` on a concrete declaration line. -/
theorem c4_witness :
    searchMDI "MDI_ICONS+=\",0xf005c\" # wifi".data = some ("0xf005c".data, "wifi".data)
    ∧ ∃ hx, ("0xf005c".data : List Char) = '0' :: 'x' :: hx ∧ hx ≠ [] ∧
        (∀ c ∈ hx, isHexCh c = true) ∧
        parseLine 3 "MDI_ICONS+=\",0xf005c\" # wifi".data =
          some ⟨3, hx.map Char.toUpper, pyStrip "wifi".data,
            pyStrip "MDI_ICONS+=\",0xf005c\" # wifi".data⟩ :=
  ⟨by rfl,
    c4_parse_shape.1 3 "MDI_ICONS+=\",0xf005c\" # wifi".data "0xf005c".data "wifi".data
      (by rfl)⟩

end MdiVerify
